import Mathlib

/-!
# A hash-linked ledger with a proof-of-work search (`src/main.go`)

Shallow embedding of the Go program and proofs about it.

Modelling conventions
* A Go `byte` is a `Fin 256`; a `[]byte` and a Go `string` are lists of bytes
  (`[]byte(data)` copies the bytes of the string unchanged).
* `int64` and `int` (64-bit: the program compares an `int` with `math.MaxInt64`)
  are `Int`; the only arithmetic on them is `nonce += 1` below `MaxInt64`, which
  cannot overflow, and the encoding `IntToHex`, which reduces modulo `2^64`.
* `sha256.Sum256` is a parameter `H : List Byte → Digest` of every definition
  that hashes: the development holds for every function from byte strings to
  32-byte arrays, so for SHA-256. The sample hash functions below only show
  that the hypotheses of theorems can be met; nothing is refuted by a choice
  of `H`.
* `time.Now().Unix()` is an input `now : Int` of every definition that reads
  the clock.
* The non-negative `big.Int` values of the program (`target`, `hashInt`) are
  natural numbers.
* A `*Block` is modelled by the block it points to (nil pointers are outside
  the model), and `Blocks []*Block` by a list of blocks.
* Console output (`fmt.Printf`, `fmt.Print`) is not modelled.
* A call either returns or panics (`Outcome`); the receiver of a method with a
  pointer receiver is passed in and handed back.
-/

namespace Blockchain

/-! ## Bytes, fixed-size arrays, outcomes -/

/-- Go `byte`. -/
abbrev Byte := Fin 256

/-- The low eight bits of a natural number: the conversion `byte(v)`. -/
def byteOf (v : Nat) : Byte := ⟨v % 256, Nat.mod_lt v (by decide)⟩

/-- Go `[32]byte`, the result type of `sha256.Sum256`. -/
structure Digest where
  bytes : List Byte
  len : bytes.length = 32

/-- The zero value of `[32]byte` (what `var hash [32]byte` holds). -/
def zeroDigest : Digest := ⟨List.replicate 32 0, by simp⟩

/-- The panics the program can raise: the bounds check of the Go runtime, and
`log.Panic(err)`. -/
inductive GoPanic where
  | indexOutOfRange (index : Int) (length : Nat)
  | logPanic (err : String)
  deriving DecidableEq, Repr

/-- How a call ends: it returns its results to the caller, or it panics. -/
inductive Outcome (α : Type) where
  | returns (v : α)
  | panics (p : GoPanic)
  deriving DecidableEq, Repr

/-- The index expression `s[i]` on a slice, with the bounds check of the runtime. -/
def sliceIndex {α : Type} (s : List α) (i : Int) : Outcome α :=
  if i < 0 then Outcome.panics (GoPanic.indexOutOfRange i s.length)
  else
    match s[i.toNat]? with
    | some x => Outcome.returns x
    | none => Outcome.panics (GoPanic.indexOutOfRange i s.length)

/-- Library function `bytes.Join(s, sep)`: the elements of `s` with `sep` between them. -/
def bytesJoin : List (List Byte) → List Byte → List Byte
  | [], _ => []
  | [a], _ => a
  | a :: b :: rest, sep => a ++ sep ++ bytesJoin (b :: rest) sep

/-- Library function `big.Int.SetBytes`: the bytes read as a big-endian unsigned integer. -/
def setBytes (buf : List Byte) : Nat :=
  buf.foldl (fun acc b => acc * 256 + b.val) 0

/-- Library function `big.Int.Cmp`: `-1` if `x < y`, `0` if `x = y`, `+1` if `x > y`. -/
def bigCmp (x y : Nat) : Int :=
  if x < y then -1 else if x = y then 0 else 1

/-- The constant `math.MaxInt64`. -/
def MaxInt64 : Int := 9223372036854775807

/-- The value of an `int64` as the `uint64` with the same bits (two's complement). -/
def toUint64 (i : Int) : Nat := (i % 18446744073709551616).toNat

/-- Library function `binary.BigEndian.PutUint64`, which `binary.Write` uses for an `int64`. -/
def putUint64BE (v : Nat) : List Byte :=
  [byteOf (v >>> 56), byteOf (v >>> 48), byteOf (v >>> 40), byteOf (v >>> 32),
   byteOf (v >>> 24), byteOf (v >>> 16), byteOf (v >>> 8), byteOf v]

/-- The decimal digits of a natural number as ASCII bytes. -/
def decimalBytes (n : Nat) : List Byte :=
  (Nat.toDigits 10 n).map (fun c => byteOf c.toNat)

/-- Library function `strconv.FormatInt(i, 10)` followed by `[]byte(...)`. -/
def formatInt10 (i : Int) : List Byte :=
  if i < 0 then byteOf 45 :: decimalBytes i.natAbs else decimalBytes i.natAbs

/-! ## The program -/

/-- Go `type Block struct`. -/
structure Block where
  Timestamp : Int
  PreBlockHash : List Byte
  Hash : List Byte
  Data : List Byte
  Nonce : Int

/-- Go `type BlockChain struct`. -/
structure BlockChain where
  Blocks : List Block

/-- Go `const targetBits = 32`. -/
def targetBits : Nat := 32

/-- Go `type ProofOfWork struct`. -/
structure ProofOfWork where
  Block : Blockchain.Block
  target : Nat

/-- Go `func (b *Block) setHash()`: the receiver after the call. -/
def Block.setHash (H : List Byte → Digest) (b : Block) : Block :=
  let timestamp := formatInt10 b.Timestamp
  let headers := bytesJoin [b.PreBlockHash, b.Data, timestamp] []
  let hash := H headers
  { b with Hash := hash.bytes }

/-- Go `func NewProofOfWork(b *Block) *ProofOfWork`. -/
def NewProofOfWork (b : Block) : ProofOfWork :=
  let target := 1
  let target := target <<< (256 - targetBits)
  { Block := b, target := target }

/-- Go `func IntToHex(i int64) []byte`, the bytes it returns. `binary.Write` of
an `int64` into a `bytes.Buffer` returns no error; `IntToHexOutcome` below keeps
the error branch. -/
def IntToHex (i : Int) : List Byte :=
  putUint64BE (toUint64 i)

/-- Library function `binary.Write(buff, binary.BigEndian, i)` for an `int64`
written into a `bytes.Buffer`: the buffer after the call and the error returned.
An `int64` has a fixed size, so it is encoded with `PutUint64`, and
`bytes.Buffer.Write` always returns a nil error. -/
def binaryWrite (buff : List Byte) (i : Int) : List Byte × Option String :=
  (buff ++ putUint64BE (toUint64 i), none)

/-- Go `func IntToHex(i int64) []byte` with its error branch: how the call ends. -/
def IntToHexOutcome (i : Int) : Outcome (List Byte) :=
  let buff : List Byte := []
  match binaryWrite buff i with
  | (_, some err) => Outcome.panics (GoPanic.logPanic err)
  | (buff, none) => Outcome.returns buff

/-- Go `func (p *ProofOfWork) prepareData(nonce int) []byte`. -/
def ProofOfWork.prepareData (p : ProofOfWork) (nonce : Int) : List Byte :=
  bytesJoin
    [p.Block.PreBlockHash,
     p.Block.Data,
     IntToHex p.Block.Timestamp,
     IntToHex (targetBits : Int),
     IntToHex nonce]
    []

/-- The loop `for nonce < math.MaxInt64 { ... }` of `Run`, started with the
current values of `nonce` and `hash`; it returns their values when the loop is
left. `fuel` bounds the number of iterations (see `runLoop_fuel`). -/
def ProofOfWork.runLoop (H : List Byte → Digest) (p : ProofOfWork) :
    Nat → Int → Digest → Int × Digest
  | 0, nonce, hash => (nonce, hash)
  | fuel + 1, nonce, hash =>
    if nonce < MaxInt64 then
      let data := p.prepareData nonce
      let hash := H data
      let hashInt := setBytes hash.bytes
      if bigCmp hashInt p.target = -1 then
        (nonce, hash)
      else
        ProofOfWork.runLoop H p fuel (nonce + 1) hash
    else
      (nonce, hash)

/-- Go `func (p *ProofOfWork) Run() (int, []byte)`. The loop runs at most
`MaxInt64` times from `nonce = 0`, which is the fuel given. -/
def ProofOfWork.Run (H : List Byte → Digest) (p : ProofOfWork) : Int × List Byte :=
  let r := p.runLoop H 9223372036854775807 0 zeroDigest
  (r.1, r.2.bytes)

/-- Go `func NewBlock(data string, preBlockHash []byte) *Block`. -/
def NewBlock (H : List Byte → Digest) (now : Int) (data : List Byte)
    (preBlockHash : List Byte) : Block :=
  let block : Block :=
    { Timestamp := now, PreBlockHash := preBlockHash, Hash := [], Data := data, Nonce := 0 }
  let p := NewProofOfWork block
  let r := p.Run H
  { block with Hash := r.2, Nonce := r.1 }

/-- Go `func (b *BlockChain) AddBlock(data string)`: how the call ends and the
receiver after it. -/
def BlockChain.AddBlock (H : List Byte → Digest) (now : Int) (b : BlockChain)
    (data : List Byte) : Outcome Unit × BlockChain :=
  match sliceIndex b.Blocks ((b.Blocks.length : Int) - 1) with
  | Outcome.panics e => (Outcome.panics e, b)
  | Outcome.returns preBlockHash =>
    let block := NewBlock H now data preBlockHash.Hash
    (Outcome.returns (), { Blocks := b.Blocks ++ [block] })

/-- The string literal `"hello block chain"` as bytes. -/
def genesisData : List Byte :=
  [104, 101, 108, 108, 111, 32, 98, 108, 111, 99, 107, 32, 99, 104, 97, 105, 110]

/-- Go `func NewGenesisBlock() *Block`. -/
def NewGenesisBlock (H : List Byte → Digest) (now : Int) : Block :=
  NewBlock H now genesisData []

/-- Go `func NewBlockChain() *BlockChain`. -/
def NewBlockChain (H : List Byte → Digest) (now : Int) : BlockChain :=
  { Blocks := [NewGenesisBlock H now] }

/-- The string literal `"Send 1 BTC to Ivan"` as bytes. -/
def send1Data : List Byte :=
  [83, 101, 110, 100, 32, 49, 32, 66, 84, 67, 32, 116, 111, 32, 73, 118, 97, 110]

/-- The string literal `"Send 2 BTC to Ivan"` as bytes. -/
def send2Data : List Byte :=
  [83, 101, 110, 100, 32, 50, 32, 66, 84, 67, 32, 116, 111, 32, 73, 118, 97, 110]

/-- A sequence of `AddBlock` calls on a chain, one per entry of `calls` (the
clock reading during the call and its payload), stopping at the first panic. -/
def addBlocks (H : List Byte → Digest) :
    BlockChain → List (Int × List Byte) → Outcome Unit × BlockChain
  | c, [] => (Outcome.returns (), c)
  | c, (now, data) :: rest =>
    match c.AddBlock H now data with
    | (Outcome.returns _, c2) => addBlocks H c2 rest
    | (Outcome.panics e, c2) => (Outcome.panics e, c2)

/-- The chain part of Go `func main()`: `NewBlockChain` and the two `AddBlock`
calls, with the three clock readings as inputs. -/
def mainChain (H : List Byte → Digest) (t0 t1 t2 : Int) : Outcome Unit × BlockChain :=
  addBlocks H (NewBlockChain H t0) [(t1, send1Data), (t2, send2Data)]

/-! ## Predicates used in the statements -/

/-- The admission test of `Run` at a nonce: the digest of `prepareData nonce`,
read as a big-endian unsigned integer, is below the target. -/
def ProofOfWork.admits (H : List Byte → Digest) (p : ProofOfWork) (nonce : Int) : Prop :=
  setBytes (H (p.prepareData nonce)).bytes < p.target

instance (H : List Byte → Digest) (p : ProofOfWork) (nonce : Int) :
    Decidable (p.admits H nonce) := by
  unfold ProofOfWork.admits; infer_instance

/-- The chains the program can build: `NewBlockChain`, then any finite number of
`AddBlock` calls (each with its own payload and clock reading). -/
inductive Reachable (H : List Byte → Digest) : BlockChain → Prop where
  | genesis (now : Int) : Reachable H (NewBlockChain H now)
  | addBlock (c : BlockChain) (now : Int) (data : List Byte) (hc : Reachable H c) :
      Reachable H (c.AddBlock H now data).2

/-- The blocks the program constructs: a result of `NewBlock`, or a block of a
chain built by `NewBlockChain` and `AddBlock`. -/
inductive Produced (H : List Byte → Digest) : Block → Prop where
  | newBlock (now : Int) (data preBlockHash : List Byte) :
      Produced H (NewBlock H now data preBlockHash)
  | inChain (c : BlockChain) (hc : Reachable H c) (b : Block) (hb : b ∈ c.Blocks) :
      Produced H b

/-- The block `NewBlock` hands to `NewProofOfWork`: the clock reading, the
previous hash and the payload, with `Hash` nil and `Nonce` 0. -/
def pendingBlock (now : Int) (data preBlockHash : List Byte) : Block :=
  { Timestamp := now, PreBlockHash := preBlockHash, Hash := [], Data := data, Nonce := 0 }

/-- The values of Go `int64` (and of `int` on the 64-bit platforms the program
compiles for). -/
def IsInt64 (i : Int) : Prop :=
  -9223372036854775808 ≤ i ∧ i ≤ 9223372036854775807

instance (i : Int) : Decidable (IsInt64 i) := by
  unfold IsInt64; infer_instance

/-! ## Sample inputs -/

/-- The digest with every byte `0xff`. -/
def onesDigest : Digest := ⟨List.replicate 32 255, by simp⟩

/-- A hash function whose digest is all zero when the input ends in the byte 3
and all `0xff` otherwise: the search succeeds at nonce 3. -/
def demoHash (d : List Byte) : Digest :=
  if d.getLast? = some 3 then zeroDigest else onesDigest

/-- A hash function no digest of which is below the target: 31 bytes `0xff`
followed by the last byte of the input. -/
def stuckHash (d : List Byte) : Digest :=
  ⟨List.replicate 31 255 ++ [d.getLast?.getD 0], by simp⟩

/-- A `ProofOfWork` value whose target is 0, as the composite literal
`&ProofOfWork{block, big.NewInt(0)}` builds it: no digest is below its target,
whatever the hash function. -/
def zeroTargetWork : ProofOfWork :=
  { Block := pendingBlock 0 [] [], target := 0 }

/-- A block before mining, as `NewBlock` builds it. -/
def demoBlock : Block :=
  { Timestamp := 1700000000, PreBlockHash := [], Hash := [], Data := [1, 2], Nonce := 0 }

end Blockchain

namespace Blockchain

/-! ## The library models -/

theorem bigCmp_eq_neg_one (x y : Nat) : bigCmp x y = -1 ↔ x < y := by
  unfold bigCmp
  by_cases h : x < y
  · simp [h]
  · by_cases h2 : x = y <;> simp [h, h2]

theorem bytesJoin_five (a b c d e : List Byte) :
    bytesJoin [a, b, c, d, e] [] = a ++ b ++ c ++ d ++ e := by
  simp [bytesJoin]

theorem putUint64BE_length (v : Nat) : (putUint64BE v).length = 8 := rfl

theorem IntToHex_length (i : Int) : (IntToHex i).length = 8 := rfl

/-! ## The search loop -/

theorem runLoop_zero (H : List Byte → Digest) (p : ProofOfWork) (nonce : Int) (hash : Digest) :
    p.runLoop H 0 nonce hash = (nonce, hash) := rfl

theorem runLoop_succ (H : List Byte → Digest) (p : ProofOfWork) (fuel : Nat) (nonce : Int)
    (hash : Digest) :
    p.runLoop H (fuel + 1) nonce hash =
      if nonce < MaxInt64 then
        if p.admits H nonce then (nonce, H (p.prepareData nonce))
        else p.runLoop H fuel (nonce + 1) (H (p.prepareData nonce))
      else (nonce, hash) := by
  simp only [ProofOfWork.runLoop, bigCmp_eq_neg_one, ProofOfWork.admits]

/-- Loop invariant of the search, for a start value `nonce ≤ MaxInt64` and
enough fuel to reach `MaxInt64`. -/
theorem runLoop_inv (H : List Byte → Digest) (p : ProofOfWork) :
    ∀ (fuel : Nat) (nonce : Int) (hash : Digest),
      MaxInt64 - nonce ≤ fuel → nonce ≤ MaxInt64 →
      nonce ≤ (p.runLoop H fuel nonce hash).1 ∧
      (p.runLoop H fuel nonce hash).1 ≤ MaxInt64 ∧
      (∀ m : Int, nonce ≤ m → m < (p.runLoop H fuel nonce hash).1 → ¬ p.admits H m) ∧
      ((p.runLoop H fuel nonce hash).1 < MaxInt64 →
        (p.runLoop H fuel nonce hash).2 = H (p.prepareData (p.runLoop H fuel nonce hash).1) ∧
        p.admits H (p.runLoop H fuel nonce hash).1) ∧
      ((p.runLoop H fuel nonce hash).1 = MaxInt64 → nonce < MaxInt64 →
        (p.runLoop H fuel nonce hash).2 = H (p.prepareData (MaxInt64 - 1))) ∧
      ((p.runLoop H fuel nonce hash).1 = MaxInt64 → nonce = MaxInt64 →
        (p.runLoop H fuel nonce hash).2 = hash) := by
  intro fuel
  induction fuel with
  | zero =>
    intro nonce hash hfuel hle
    have hn : nonce = MaxInt64 := by omega
    subst hn
    rw [runLoop_zero]
    refine ⟨le_refl _, le_refl _, ?_, ?_, ?_, ?_⟩
    · intro m h1 h2; omega
    · intro h; omega
    · intro _ h; omega
    · intro _ _; rfl
  | succ k ih =>
    intro nonce hash hfuel hle
    rw [runLoop_succ]
    by_cases hlt : nonce < MaxInt64
    · by_cases hadm : p.admits H nonce
      · rw [if_pos hlt, if_pos hadm]
        refine ⟨le_refl _, hle, ?_, ?_, ?_, ?_⟩
        · intro m h1 h2; omega
        · intro _; exact ⟨rfl, hadm⟩
        · intro h1 h2; omega
        · intro h1 h2; omega
      · rw [if_pos hlt, if_neg hadm]
        have hfuel2 : MaxInt64 - (nonce + 1) ≤ (k : Int) := by push_cast at hfuel; omega
        have hle2 : nonce + 1 ≤ MaxInt64 := by omega
        obtain ⟨h1, h2, h3, h4, h5, h6⟩ := ih (nonce + 1) (H (p.prepareData nonce)) hfuel2 hle2
        refine ⟨by omega, h2, ?_, h4, ?_, ?_⟩
        · intro m hm1 hm2
          by_cases hm : m = nonce
          · subst hm; exact hadm
          · exact h3 m (by omega) hm2
        · intro he _
          by_cases hlast : nonce + 1 = MaxInt64
          · have hh := h6 he hlast
            rw [hh]
            have : nonce = MaxInt64 - 1 := by omega
            rw [this]
          · exact h5 he (by omega)
        · intro he hn; omega
    · rw [if_neg hlt]
      refine ⟨le_refl _, hle, ?_, ?_, ?_, ?_⟩
      · intro m h1 h2; omega
      · intro h; omega
      · intro _ h; omega
      · intro _ _; rfl

/-- More fuel than the distance to `MaxInt64` changes nothing: the loop never
stops for lack of fuel when it is given at least `MaxInt64 - nonce`. -/
theorem runLoop_fuel (H : List Byte → Digest) (p : ProofOfWork) :
    ∀ (fuel extra : Nat) (nonce : Int) (hash : Digest),
      MaxInt64 - nonce ≤ fuel →
      p.runLoop H (fuel + extra) nonce hash = p.runLoop H fuel nonce hash := by
  intro fuel
  induction fuel with
  | zero =>
    intro extra nonce hash hfuel
    have hn : ¬ nonce < MaxInt64 := by omega
    cases extra with
    | zero => rfl
    | succ e =>
      rw [show 0 + (e + 1) = (0 + e) + 1 from rfl, runLoop_succ, if_neg hn, runLoop_zero]
  | succ k ih =>
    intro extra nonce hash hfuel
    rw [show k + 1 + extra = (k + extra) + 1 by omega, runLoop_succ, runLoop_succ]
    by_cases hlt : nonce < MaxInt64
    · by_cases hadm : p.admits H nonce
      · rw [if_pos hlt, if_pos hadm, if_pos hlt, if_pos hadm]
      · rw [if_pos hlt, if_neg hadm, if_pos hlt, if_neg hadm]
        exact ih extra (nonce + 1) _ (by push_cast at hfuel; omega)
    · rw [if_neg hlt, if_neg hlt]

theorem MaxInt64_nonneg : (0 : Int) ≤ MaxInt64 := by
  unfold MaxInt64; norm_num

theorem Run_fuel_enough : MaxInt64 - 0 ≤ ((9223372036854775807 : Nat) : Int) := by
  unfold MaxInt64; norm_num

/-- What `Run` returns: the loop invariant at the exit of the loop. -/
theorem Run_inv (H : List Byte → Digest) (p : ProofOfWork) :
    0 ≤ (p.Run H).1 ∧ (p.Run H).1 ≤ MaxInt64 ∧
    (∀ m : Int, 0 ≤ m → m < (p.Run H).1 → ¬ p.admits H m) ∧
    ((p.Run H).1 < MaxInt64 →
      (p.Run H).2 = (H (p.prepareData (p.Run H).1)).bytes ∧ p.admits H (p.Run H).1) ∧
    ((p.Run H).1 = MaxInt64 → (p.Run H).2 = (H (p.prepareData (MaxInt64 - 1))).bytes) := by
  obtain ⟨h1, h2, h3, h4, h5, _⟩ :=
    runLoop_inv H p 9223372036854775807 0 zeroDigest Run_fuel_enough MaxInt64_nonneg
  refine ⟨h1, h2, h3, ?_, ?_⟩
  · intro hlt
    obtain ⟨e, a⟩ := h4 hlt
    exact ⟨congrArg Digest.bytes e, a⟩
  · intro he
    have hpos : (0 : Int) < MaxInt64 := by unfold MaxInt64; norm_num
    exact congrArg Digest.bytes (h5 he hpos)

/-- The search fails exactly when no nonce below `MaxInt64` passes the test. -/
theorem Run_eq_MaxInt64_iff (H : List Byte → Digest) (p : ProofOfWork) :
    (p.Run H).1 = MaxInt64 ↔ ∀ m : Int, 0 ≤ m → m < MaxInt64 → ¬ p.admits H m := by
  obtain ⟨h1, h2, h3, h4, _⟩ := Run_inv H p
  constructor
  · intro he m hm0 hm
    exact h3 m hm0 (by omega)
  · intro hall
    by_contra hne
    have hlt : (p.Run H).1 < MaxInt64 := by omega
    exact hall _ h1 hlt (h4 hlt).2

/-- An exhausted search returns `MaxInt64` and the digest of the last nonce tried. -/
theorem Run_exhausted (H : List Byte → Digest) (p : ProofOfWork)
    (hex : ∀ m : Int, 0 ≤ m → m < MaxInt64 → ¬ p.admits H m) :
    p.Run H = (MaxInt64, (H (p.prepareData (MaxInt64 - 1))).bytes) := by
  have hN : (p.Run H).1 = MaxInt64 := (Run_eq_MaxInt64_iff H p).mpr hex
  obtain ⟨_, _, _, _, h5⟩ := Run_inv H p
  exact Prod.ext hN (h5 hN)

theorem NewProofOfWork_target (b : Block) : (NewProofOfWork b).target = 2 ^ 224 := by
  simp [NewProofOfWork, targetBits, Nat.shiftLeft_eq]

theorem setBytes_putUint64BE (v : Nat) :
    setBytes (putUint64BE v) = v % 18446744073709551616 := by
  simp only [setBytes, putUint64BE, byteOf, List.foldl_cons, List.foldl_nil,
    Nat.shiftRight_eq_div_pow]
  norm_num
  omega

theorem toUint64_cast (i : Int) : ((toUint64 i : Nat) : Int) = i % 18446744073709551616 := by
  unfold toUint64
  exact Int.toNat_of_nonneg (Int.emod_nonneg i (by norm_num))

theorem toUint64_lt (i : Int) : toUint64 i < 18446744073709551616 := by
  have h := Int.emod_lt_of_pos i (show (0 : Int) < 18446744073709551616 by norm_num)
  have h2 := toUint64_cast i
  omega

/-- The eight bytes of `IntToHex i` read big-endian give `i` modulo `2^64`. -/
theorem setBytes_IntToHex (i : Int) :
    ((setBytes (IntToHex i) : Nat) : Int) = i % 18446744073709551616 := by
  unfold IntToHex
  rw [setBytes_putUint64BE, Nat.mod_eq_of_lt (toUint64_lt i), toUint64_cast]

/-! ## Slices and `AddBlock` -/

theorem sliceIndex_nil {α : Type} :
    sliceIndex ([] : List α) (-1) = Outcome.panics (GoPanic.indexOutOfRange (-1) 0) := rfl

theorem sliceIndex_last {α : Type} (l : List α) (h : l ≠ []) :
    sliceIndex l ((l.length : Int) - 1) = Outcome.returns (l.getLast h) := by
  have hpos : 0 < l.length := List.length_pos.mpr h
  have hnn : ¬ ((l.length : Int) - 1 < 0) := by omega
  have htn : ((l.length : Int) - 1).toNat = l.length - 1 := by omega
  unfold sliceIndex
  rw [if_neg hnn, htn, List.getElem?_eq_getElem (by omega), List.getLast_eq_getElem]

theorem AddBlock_nil (H : List Byte → Digest) (now : Int) (data : List Byte) :
    BlockChain.AddBlock H now ⟨[]⟩ data =
      (Outcome.panics (GoPanic.indexOutOfRange (-1) 0), ⟨[]⟩) := rfl

theorem AddBlock_of_ne_nil (H : List Byte → Digest) (now : Int) (c : BlockChain)
    (data : List Byte) (h : c.Blocks ≠ []) :
    c.AddBlock H now data =
      (Outcome.returns (),
        ⟨c.Blocks ++ [NewBlock H now data (c.Blocks.getLast h).Hash]⟩) := by
  unfold BlockChain.AddBlock
  rw [sliceIndex_last c.Blocks h]

theorem NewBlock_eq (H : List Byte → Digest) (now : Int) (data prev : List Byte) :
    NewBlock H now data prev =
      { Timestamp := now, PreBlockHash := prev,
        Hash := ((NewProofOfWork (pendingBlock now data prev)).Run H).2,
        Data := data,
        Nonce := ((NewProofOfWork (pendingBlock now data prev)).Run H).1 } := rfl

/-- The serialisation reads only `PreBlockHash`, `Data` and `Timestamp` of the block. -/
theorem prepareData_NewBlock (H : List Byte → Digest) (now : Int) (data prev : List Byte)
    (n : Int) :
    (NewProofOfWork (NewBlock H now data prev)).prepareData n =
      (NewProofOfWork (pendingBlock now data prev)).prepareData n := rfl

/-! ## Reachable chains -/

theorem Reachable.ne_nil {H : List Byte → Digest} {c : BlockChain} (hc : Reachable H c) :
    c.Blocks ≠ [] := by
  induction hc with
  | genesis now => simp [NewBlockChain]
  | addBlock c now data _ ih =>
    rw [AddBlock_of_ne_nil H now c data ih]
    simp

theorem Reachable.mem_newBlock {H : List Byte → Digest} {c : BlockChain}
    (hc : Reachable H c) :
    ∀ b ∈ c.Blocks, ∃ (now : Int) (data prev : List Byte), b = NewBlock H now data prev := by
  induction hc with
  | genesis now =>
    intro b hb
    simp only [NewBlockChain, List.mem_singleton] at hb
    exact ⟨now, genesisData, [], hb⟩
  | addBlock c now data hc ih =>
    intro b hb
    rw [AddBlock_of_ne_nil H now c data hc.ne_nil] at hb
    simp only [List.mem_append, List.mem_singleton] at hb
    rcases hb with hb | hb
    · exact ih b hb
    · exact ⟨now, data, _, hb⟩

theorem Produced.exists_newBlock {H : List Byte → Digest} {b : Block} (hb : Produced H b) :
    ∃ (now : Int) (data prev : List Byte), b = NewBlock H now data prev := by
  cases hb with
  | newBlock now data prev => exact ⟨now, data, prev, rfl⟩
  | inChain c hc b hb => exact hc.mem_newBlock b hb

/-! ## A hash function with no admissible digest -/

theorem setBytes_append_singleton (l : List Byte) (x : Byte) :
    setBytes (l ++ [x]) = setBytes l * 256 + x.val := by
  simp [setBytes, List.foldl_append]

theorem setBytes_stuckHash (d : List Byte) : 2 ^ 224 ≤ setBytes (stuckHash d).bytes := by
  have h : setBytes (List.replicate 31 (255 : Byte)) = 2 ^ 248 - 1 := by decide
  show 2 ^ 224 ≤ setBytes (List.replicate 31 255 ++ [d.getLast?.getD 0])
  rw [setBytes_append_singleton, h]
  norm_num
  omega

theorem stuckHash_never_admits (b : Block) (m : Int) :
    ¬ (NewProofOfWork b).admits stuckHash m := by
  unfold ProofOfWork.admits
  rw [NewProofOfWork_target]
  have h := setBytes_stuckHash ((NewProofOfWork b).prepareData m)
  omega

/-- The search reads the block only through `prepareData` and the target. -/
theorem runLoop_congr (H : List Byte → Digest) (p q : ProofOfWork)
    (ht : p.target = q.target) (hd : ∀ n : Int, p.prepareData n = q.prepareData n) :
    ∀ (fuel : Nat) (nonce : Int) (hash : Digest),
      p.runLoop H fuel nonce hash = q.runLoop H fuel nonce hash := by
  intro fuel
  induction fuel with
  | zero => intro nonce hash; rfl
  | succ k ih =>
    intro nonce hash
    rw [runLoop_succ, runLoop_succ]
    have ha : p.admits H nonce ↔ q.admits H nonce := by
      unfold ProofOfWork.admits
      rw [hd nonce, ht]
    by_cases hq : q.admits H nonce
    · rw [if_pos (ha.mpr hq), if_pos hq, hd nonce]
    · rw [if_neg (fun h => hq (ha.mp h)), if_neg hq, hd nonce, ih]

theorem Run_congr (H : List Byte → Digest) (p q : ProofOfWork)
    (ht : p.target = q.target) (hd : ∀ n : Int, p.prepareData n = q.prepareData n) :
    p.Run H = q.Run H := by
  unfold ProofOfWork.Run
  rw [runLoop_congr H p q ht hd]

theorem NewBlock_valid (H : List Byte → Digest) (now : Int) (data prev : List Byte)
    (hn : (NewBlock H now data prev).Nonce < MaxInt64) :
    (H ((NewProofOfWork (NewBlock H now data prev)).prepareData
        (NewBlock H now data prev).Nonce)).bytes = (NewBlock H now data prev).Hash ∧
    setBytes (NewBlock H now data prev).Hash < 2 ^ 224 := by
  obtain ⟨_, _, _, h4, _⟩ := Run_inv H (NewProofOfWork (pendingBlock now data prev))
  obtain ⟨e, a⟩ := h4 hn
  constructor
  · rw [prepareData_NewBlock]
    exact e.symm
  · have a2 : setBytes (H ((NewProofOfWork (pendingBlock now data prev)).prepareData
        ((NewProofOfWork (pendingBlock now data prev)).Run H).1)).bytes < 2 ^ 224 := by
      have := a
      unfold ProofOfWork.admits at this
      rw [NewProofOfWork_target] at this
      exact this
    rw [← e] at a2
    exact a2

theorem NewBlock_exhausted (H : List Byte → Digest) (now : Int) (data prev : List Byte)
    (hex : ∀ m : Int, 0 ≤ m → m < MaxInt64 →
      ¬ (NewProofOfWork (pendingBlock now data prev)).admits H m) :
    (NewBlock H now data prev).Nonce = MaxInt64 ∧
    (NewBlock H now data prev).Hash =
      (H ((NewProofOfWork (pendingBlock now data prev)).prepareData (MaxInt64 - 1))).bytes := by
  have hN : ((NewProofOfWork (pendingBlock now data prev)).Run H).1 = MaxInt64 :=
    (Run_eq_MaxInt64_iff H _).mpr hex
  obtain ⟨_, _, _, _, h5⟩ := Run_inv H (NewProofOfWork (pendingBlock now data prev))
  exact ⟨hN, h5 hN⟩

/-! ## Big-endian values -/

theorem foldl_bigEndian (l : List Byte) :
    ∀ a : Nat, l.foldl (fun acc b => acc * 256 + b.val) a =
      a * 256 ^ l.length + l.foldl (fun acc b => acc * 256 + b.val) 0 := by
  induction l with
  | nil => intro a; simp
  | cons b l ih =>
    intro a
    simp only [List.foldl_cons, List.length_cons]
    rw [ih (a * 256 + b.val), ih (0 * 256 + b.val)]
    ring

theorem setBytes_cons (b : Byte) (l : List Byte) :
    setBytes (b :: l) = b.val * 256 ^ l.length + setBytes l := by
  unfold setBytes
  rw [List.foldl_cons, foldl_bigEndian l (0 * 256 + b.val)]
  ring

theorem setBytes_append (l1 l2 : List Byte) :
    setBytes (l1 ++ l2) = setBytes l1 * 256 ^ l2.length + setBytes l2 := by
  unfold setBytes
  rw [List.foldl_append, foldl_bigEndian l2]

theorem setBytes_lt (l : List Byte) : setBytes l < 256 ^ l.length := by
  induction l with
  | nil => simp [setBytes]
  | cons b l ih =>
    rw [setBytes_cons, List.length_cons, pow_succ]
    have hb : b.val + 1 ≤ 256 := b.isLt
    calc b.val * 256 ^ l.length + setBytes l
        < b.val * 256 ^ l.length + 256 ^ l.length := by omega
      _ = (b.val + 1) * 256 ^ l.length := by ring
      _ ≤ 256 * 256 ^ l.length := Nat.mul_le_mul_right _ hb
      _ = 256 ^ l.length * 256 := by ring

theorem setBytes_eq_zero_iff (l : List Byte) : setBytes l = 0 ↔ ∀ b ∈ l, b = 0 := by
  induction l with
  | nil => simp [setBytes]
  | cons b l ih =>
    rw [setBytes_cons]
    have hpow : 0 < 256 ^ l.length := Nat.pow_pos (by norm_num)
    constructor
    · intro h
      have h1 : b.val * 256 ^ l.length = 0 := by omega
      have h2 : setBytes l = 0 := by omega
      have hb : b.val = 0 := by
        rcases Nat.mul_eq_zero.mp h1 with h | h
        · exact h
        · omega
      intro x hx
      rcases List.mem_cons.mp hx with hx | hx
      · rw [hx]; exact Fin.ext hb
      · exact ih.mp h2 x hx
    · intro h
      have hb : b = 0 := h b (List.mem_cons_self _ _)
      have hl : setBytes l = 0 := ih.mpr (fun x hx => h x (List.mem_cons_of_mem _ hx))
      rw [hb, hl]
      simp

/-! ## The encodings -/

theorem IntToHex_injective (i j : Int) (hi : IsInt64 i) (hj : IsInt64 j)
    (h : IntToHex i = IntToHex j) : i = j := by
  have h1 := setBytes_IntToHex i
  have h2 := setBytes_IntToHex j
  rw [h] at h1
  unfold IsInt64 at hi hj
  omega

theorem prepareData_append (p : ProofOfWork) (nonce : Int) :
    p.prepareData nonce =
      p.Block.PreBlockHash ++ (p.Block.Data ++ (IntToHex p.Block.Timestamp ++
        (IntToHex 32 ++ IntToHex nonce))) := by
  unfold ProofOfWork.prepareData
  rw [bytesJoin_five]
  simp only [List.append_assoc]
  rfl

/-! ## Sequences of calls -/

theorem Reachable.head_genesis {H : List Byte → Digest} {c : BlockChain}
    (hc : Reachable H c) : ∃ now0 : Int, c.Blocks[0]? = some (NewGenesisBlock H now0) := by
  induction hc with
  | genesis now => exact ⟨now, rfl⟩
  | addBlock c now data hc ih =>
    obtain ⟨now0, h0⟩ := ih
    have hne := hc.ne_nil
    have hpos : 0 < c.Blocks.length := List.length_pos.mpr hne
    refine ⟨now0, ?_⟩
    rw [AddBlock_of_ne_nil H now c data hne]
    show (c.Blocks ++ [_])[0]? = _
    rw [List.getElem?_append_left hpos]
    exact h0

theorem addBlocks_of_ne_nil (H : List Byte → Digest) :
    ∀ (calls : List (Int × List Byte)) (c : BlockChain), c.Blocks ≠ [] →
      (addBlocks H c calls).1 = Outcome.returns () ∧
      (addBlocks H c calls).2.Blocks.map Block.Data =
        c.Blocks.map Block.Data ++ calls.map Prod.snd := by
  intro calls
  induction calls with
  | nil => intro c _; simp [addBlocks]
  | cons call rest ih =>
    intro c hne
    obtain ⟨now, data⟩ := call
    have hstep : addBlocks H c ((now, data) :: rest) =
        addBlocks H ⟨c.Blocks ++ [NewBlock H now data (c.Blocks.getLast hne).Hash]⟩ rest := by
      rw [addBlocks, AddBlock_of_ne_nil H now c data hne]
    rw [hstep]
    obtain ⟨h1, h2⟩ := ih ⟨c.Blocks ++ [NewBlock H now data (c.Blocks.getLast hne).Hash]⟩
      (by simp)
    refine ⟨h1, ?_⟩
    rw [h2]
    simp [NewBlock]

/-! ## Number of iterations -/

/-- The loop needs one iteration per nonce it tries: fuel for the nonces from the
start value up to the one returned, plus one, already gives the result. -/
theorem runLoop_fuel_of_result (H : List Byte → Digest) (p : ProofOfWork) :
    ∀ (fuel : Nat) (nonce : Int) (hash : Digest),
      MaxInt64 - nonce ≤ fuel → nonce ≤ MaxInt64 →
      ∀ f2 : Nat, (p.runLoop H fuel nonce hash).1 - nonce + 1 ≤ f2 →
        p.runLoop H f2 nonce hash = p.runLoop H fuel nonce hash := by
  intro fuel
  induction fuel with
  | zero =>
    intro nonce hash hfuel hle f2 hf2
    have hn : ¬ nonce < MaxInt64 := by omega
    rw [runLoop_zero] at hf2 ⊢
    obtain ⟨j, rfl⟩ : ∃ j, f2 = j + 1 := ⟨f2 - 1, by omega⟩
    rw [runLoop_succ, if_neg hn]
  | succ k ih =>
    intro nonce hash hfuel hle f2 hf2
    rw [runLoop_succ] at hf2 ⊢
    by_cases hlt : nonce < MaxInt64
    · by_cases hadm : p.admits H nonce
      · rw [if_pos hlt, if_pos hadm] at hf2 ⊢
        obtain ⟨j, rfl⟩ : ∃ j, f2 = j + 1 := ⟨f2 - 1, by omega⟩
        rw [runLoop_succ, if_pos hlt, if_pos hadm]
      · rw [if_pos hlt, if_neg hadm] at hf2 ⊢
        have hfuel2 : MaxInt64 - (nonce + 1) ≤ (k : Int) := by push_cast at hfuel; omega
        have hle2 : nonce + 1 ≤ MaxInt64 := by omega
        have hge := (runLoop_inv H p k (nonce + 1) (H (p.prepareData nonce)) hfuel2 hle2).1
        obtain ⟨j, rfl⟩ : ∃ j, f2 = j + 1 := ⟨f2 - 1, by omega⟩
        rw [runLoop_succ, if_pos hlt, if_neg hadm]
        exact ih (nonce + 1) _ hfuel2 hle2 j (by push_cast at hf2; omega)
    · rw [if_neg hlt] at hf2 ⊢
      obtain ⟨j, rfl⟩ : ∃ j, f2 = j + 1 := ⟨f2 - 1, by omega⟩
      rw [runLoop_succ, if_neg hlt]

theorem Run_snd_length (H : List Byte → Digest) (p : ProofOfWork) :
    (p.Run H).2.length = 32 :=
  (p.runLoop H 9223372036854775807 0 zeroDigest).2.len

theorem bytesJoin_three (a b c : List Byte) : bytesJoin [a, b, c] [] = a ++ b ++ c := by
  simp [bytesJoin]

/-! ## Blocks of a successful search, and a target nothing is below -/

/-- For a block the program constructs whose stored nonce is below `MaxInt64`,
the stored hash is the digest of `prepareData` at that nonce and is below
`2^224`. -/
theorem Produced.valid_of_found {H : List Byte → Digest} {b : Block} (hb : Produced H b)
    (hn : b.Nonce < MaxInt64) :
    (H ((NewProofOfWork b).prepareData b.Nonce)).bytes = b.Hash ∧
    setBytes b.Hash < 2 ^ 224 := by
  obtain ⟨now, data, prev, rfl⟩ := hb.exists_newBlock
  exact NewBlock_valid H now data prev hn

theorem zeroTargetWork_never_admits (H : List Byte → Digest) (m : Int) :
    ¬ zeroTargetWork.admits H m := by
  unfold ProofOfWork.admits
  exact Nat.not_lt_zero _

/-! ## Claims -/

/-- C1: if `Run` returns `(n, h)` with `n < MaxInt64`, then `h` is the digest of
`prepareData n`, `h` read as a big-endian unsigned integer is below the target,
and no nonce `m` with `0 ≤ m < n` has a digest below the target: `Run` returns
the smallest admissible nonce together with its digest. -/
theorem Run_returns_smallest_admissible (H : List Byte → Digest) (b : Block) (n : Int)
    (h : List Byte) (hrun : (NewProofOfWork b).Run H = (n, h)) (hn : n < MaxInt64) :
    h = (H ((NewProofOfWork b).prepareData n)).bytes ∧
    setBytes h < (NewProofOfWork b).target ∧
    ∀ m : Int, 0 ≤ m → m < n →
      ¬ setBytes (H ((NewProofOfWork b).prepareData m)).bytes < (NewProofOfWork b).target := by
  obtain ⟨_, _, h3, h4, _⟩ := Run_inv H (NewProofOfWork b)
  rw [hrun] at h3 h4
  obtain ⟨e, a⟩ := h4 hn
  refine ⟨e, ?_, h3⟩
  have e2 : h = (H ((NewProofOfWork b).prepareData n)).bytes := e
  rw [e2]
  exact a

/-- C1, at a concrete input: with `demoHash` the search on `demoBlock` returns
nonce 3 and the all-zero digest. -/
theorem Run_returns_smallest_admissible_witness :
    (NewProofOfWork demoBlock).Run demoHash = (3, List.replicate 32 0) ∧
    (3 : Int) < MaxInt64 ∧
    (List.replicate 32 (0 : Byte) =
        (demoHash ((NewProofOfWork demoBlock).prepareData 3)).bytes ∧
      setBytes (List.replicate 32 (0 : Byte)) < (NewProofOfWork demoBlock).target ∧
      ∀ m : Int, 0 ≤ m → m < 3 →
        ¬ setBytes (demoHash ((NewProofOfWork demoBlock).prepareData m)).bytes <
          (NewProofOfWork demoBlock).target) :=
  ⟨by decide, by decide,
   Run_returns_smallest_admissible demoHash demoBlock 3 (List.replicate 32 0)
     (by decide) (by decide)⟩

/-- C5: `prepareData nonce` is `PreBlockHash`, `Data`, and the eight-byte
big-endian encodings of `Timestamp`, of 32 and of `nonce`, in this order with
nothing between them; each encoding has 8 bytes whose big-endian value is the
integer modulo `2^64`; the length is `len(PreBlockHash) + len(Data) + 24`. -/
theorem prepareData_layout (p : ProofOfWork) (nonce : Int) :
    p.prepareData nonce =
      p.Block.PreBlockHash ++ p.Block.Data ++ IntToHex p.Block.Timestamp ++
        IntToHex 32 ++ IntToHex nonce ∧
    ((IntToHex p.Block.Timestamp).length = 8 ∧
      ((setBytes (IntToHex p.Block.Timestamp) : Nat) : Int) = p.Block.Timestamp % 2 ^ 64) ∧
    IntToHex 32 = [0, 0, 0, 0, 0, 0, 0, 32] ∧
    ((IntToHex nonce).length = 8 ∧
      ((setBytes (IntToHex nonce) : Nat) : Int) = nonce % 2 ^ 64) ∧
    (p.prepareData nonce).length =
      p.Block.PreBlockHash.length + p.Block.Data.length + 24 := by
  have hcat : p.prepareData nonce =
      p.Block.PreBlockHash ++ p.Block.Data ++ IntToHex p.Block.Timestamp ++
        IntToHex 32 ++ IntToHex nonce := by
    unfold ProofOfWork.prepareData
    rw [bytesJoin_five]
    rfl
  refine ⟨hcat, ⟨IntToHex_length _, ?_⟩, by decide, ⟨IntToHex_length _, ?_⟩, ?_⟩
  · rw [setBytes_IntToHex]; norm_num
  · rw [setBytes_IntToHex]; norm_num
  · rw [hcat]
    simp only [List.length_append, IntToHex_length]

/-- C4: in every chain reachable from `NewBlockChain` by `AddBlock` calls,
`Blocks[0]` exists and has an empty `PreBlockHash`, and for every index `i > 0`
of the chain `Blocks[i].PreBlockHash` equals `Blocks[i-1].Hash`. -/
theorem reachable_chain_linked (H : List Byte → Digest) (c : BlockChain)
    (hc : Reachable H c) :
    (∃ b0 : Block, c.Blocks[0]? = some b0 ∧ b0.PreBlockHash = []) ∧
    ∀ i : Nat, 0 < i → i < c.Blocks.length →
      ∃ bi bp : Block, c.Blocks[i]? = some bi ∧ c.Blocks[i - 1]? = some bp ∧
        bi.PreBlockHash = bp.Hash := by
  induction hc with
  | genesis now =>
    refine ⟨⟨NewGenesisBlock H now, rfl, rfl⟩, ?_⟩
    intro i hi hlen
    simp only [NewBlockChain, List.length_singleton] at hlen
    omega
  | addBlock c now data hc ih =>
    obtain ⟨⟨b0, hb0, hpre⟩, hlink⟩ := ih
    have hne := hc.ne_nil
    have hpos : 0 < c.Blocks.length := List.length_pos.mpr hne
    rw [AddBlock_of_ne_nil H now c data hne]
    refine ⟨⟨b0, ?_, hpre⟩, ?_⟩
    · show (c.Blocks ++ [_])[0]? = some b0
      rw [List.getElem?_append_left hpos]
      exact hb0
    · intro i hi hlen
      simp only [List.length_append, List.length_singleton] at hlen
      show ∃ bi bp : Block, (c.Blocks ++ [_])[i]? = some bi ∧
        (c.Blocks ++ [_])[i - 1]? = some bp ∧ bi.PreBlockHash = bp.Hash
      by_cases hlt : i < c.Blocks.length
      · obtain ⟨bi, bp, h1, h2, h3⟩ := hlink i hi hlt
        refine ⟨bi, bp, ?_, ?_, h3⟩
        · rw [List.getElem?_append_left hlt]; exact h1
        · rw [List.getElem?_append_left (by omega)]; exact h2
      · have hi2 : i = c.Blocks.length := by omega
        subst hi2
        refine ⟨NewBlock H now data (c.Blocks.getLast hne).Hash, c.Blocks.getLast hne, ?_, ?_, rfl⟩
        · rw [List.getElem?_append_right (le_refl _)]
          simp
        · rw [List.getElem?_append_left (by omega), List.getElem?_eq_getElem (by omega),
            List.getLast_eq_getElem]

/-- C4, at a concrete input: the chain built with `demoHash` by `NewBlockChain`
and one `AddBlock`. -/
theorem reachable_chain_linked_witness :
    Reachable demoHash
      (BlockChain.AddBlock demoHash 1700000007 (NewBlockChain demoHash 1700000000) [7]).2 ∧
    ((∃ b0 : Block,
        (BlockChain.AddBlock demoHash 1700000007
          (NewBlockChain demoHash 1700000000) [7]).2.Blocks[0]? = some b0 ∧
        b0.PreBlockHash = []) ∧
      ∀ i : Nat, 0 < i →
        i < (BlockChain.AddBlock demoHash 1700000007
          (NewBlockChain demoHash 1700000000) [7]).2.Blocks.length →
        ∃ bi bp : Block,
          (BlockChain.AddBlock demoHash 1700000007
            (NewBlockChain demoHash 1700000000) [7]).2.Blocks[i]? = some bi ∧
          (BlockChain.AddBlock demoHash 1700000007
            (NewBlockChain demoHash 1700000000) [7]).2.Blocks[i - 1]? = some bp ∧
          bi.PreBlockHash = bp.Hash) :=
  ⟨Reachable.addBlock _ _ _ (Reachable.genesis _),
   reachable_chain_linked demoHash _ (Reachable.addBlock _ _ _ (Reachable.genesis _))⟩

/-- C6: with the clock reading `now`, `NewBlock data prev` returns a block with
`Timestamp = now`, `PreBlockHash = prev`, `Data = data`, and `(Nonce, Hash)` the
pair `Run` returns on the block carrying those three fields, whatever that block
holds in `Hash` and `Nonce`; `setHash` does not determine the stored hash: on
some input the two differ. -/
theorem NewBlock_fields (H : List Byte → Digest) (now : Int) (data prev : List Byte) :
    (NewBlock H now data prev).Timestamp = now ∧
    (NewBlock H now data prev).PreBlockHash = prev ∧
    (NewBlock H now data prev).Data = data ∧
    (∀ (h0 : List Byte) (n0 : Int),
      ((NewBlock H now data prev).Nonce, (NewBlock H now data prev).Hash) =
        (NewProofOfWork
          { Timestamp := now, PreBlockHash := prev, Hash := h0, Data := data, Nonce := n0 }).Run
          H) ∧
    ∃ (H2 : List Byte → Digest) (now2 : Int) (data2 prev2 : List Byte),
      (NewBlock H2 now2 data2 prev2).Hash ≠
        (Block.setHash H2 (NewBlock H2 now2 data2 prev2)).Hash := by
  refine ⟨rfl, rfl, rfl, ?_, ?_⟩
  · intro h0 n0
    exact Run_congr H _ _ rfl (fun _ => rfl)
  · exact ⟨demoHash, 1700000000, [1, 2], [], by decide⟩

/-- C7: on a chain with at least one block `AddBlock` returns, the new chain has
one block more, and every index below the old length holds the same block (all
five fields) as before. -/
theorem AddBlock_appends_one (H : List Byte → Digest) (now : Int) (c : BlockChain)
    (data : List Byte) (hne : c.Blocks ≠ []) :
    (c.AddBlock H now data).1 = Outcome.returns () ∧
    (c.AddBlock H now data).2.Blocks.length = c.Blocks.length + 1 ∧
    ∀ i : Nat, i < c.Blocks.length →
      ∃ old new : Block, c.Blocks[i]? = some old ∧
        (c.AddBlock H now data).2.Blocks[i]? = some new ∧
        new.Timestamp = old.Timestamp ∧ new.PreBlockHash = old.PreBlockHash ∧
        new.Hash = old.Hash ∧ new.Data = old.Data ∧ new.Nonce = old.Nonce := by
  rw [AddBlock_of_ne_nil H now c data hne]
  refine ⟨rfl, by simp, ?_⟩
  intro i hi
  refine ⟨c.Blocks[i], c.Blocks[i], List.getElem?_eq_getElem hi, ?_, rfl, rfl, rfl, rfl, rfl⟩
  show (c.Blocks ++ [_])[i]? = some c.Blocks[i]
  rw [List.getElem?_append_left hi, List.getElem?_eq_getElem hi]

/-- C7, at a concrete input: `AddBlock` on the genesis chain built with `demoHash`. -/
theorem AddBlock_appends_one_witness :
    (NewBlockChain demoHash 1700000000).Blocks ≠ [] ∧
    (BlockChain.AddBlock demoHash 1700000007 (NewBlockChain demoHash 1700000000) [7]).1 =
      Outcome.returns () ∧
    (BlockChain.AddBlock demoHash 1700000007
      (NewBlockChain demoHash 1700000000) [7]).2.Blocks.length = 2 :=
  ⟨List.cons_ne_nil _ _,
   (AddBlock_appends_one demoHash 1700000007 (NewBlockChain demoHash 1700000000) [7]
      (List.cons_ne_nil _ _)).1,
   (AddBlock_appends_one demoHash 1700000007 (NewBlockChain demoHash 1700000000) [7]
      (List.cons_ne_nil _ _)).2.1⟩

/-- C9: `NewBlockChain` returns a chain of exactly one block, whose
`PreBlockHash` is empty and whose `Data` is the bytes of `"hello block chain"`. -/
theorem NewBlockChain_genesis (H : List Byte → Digest) (now : Int) :
    (NewBlockChain H now).Blocks.length = 1 ∧
    (∃ g : Block, (NewBlockChain H now).Blocks = [g] ∧ g.PreBlockHash = [] ∧
      g.Data = genesisData) ∧
    genesisData.map Fin.val = "hello block chain".toList.map Char.toNat := by
  refine ⟨rfl, ⟨NewGenesisBlock H now, rfl, rfl, rfl⟩, by decide⟩

/-- C8 as stated fails: for the `ProofOfWork` value with target 0 no nonce
yields a digest below the target, whatever the hash function, and `Run` returns
the pair of `MaxInt64` and the digest of `MaxInt64 - 1` to its caller, as it
returns the result of a successful search. -/
theorem exhaustion_goes_unreported :
    (∀ (H : List Byte → Digest) (m : Int), ¬ zeroTargetWork.admits H m) ∧
    ∀ H : List Byte → Digest,
      zeroTargetWork.Run H =
        (MaxInt64, (H (zeroTargetWork.prepareData (MaxInt64 - 1))).bytes) :=
  ⟨zeroTargetWork_never_admits,
   fun H => Run_exhausted H zeroTargetWork (fun m _ _ => zeroTargetWork_never_admits H m)⟩

/-- C8, amended: when no nonce in `[0, MaxInt64)` yields a digest below the
target of a `ProofOfWork` value, nothing is reported: `Run` returns a pair whose
nonce is `MaxInt64` and whose hash is not below the target. When the value is
the one `NewBlock` builds, `NewBlock` returns a block with that nonce and hash,
and `AddBlock` on a chain whose last block has the hash `prev` returns normally
and appends that block. -/
theorem exhaustion_returns_normally (H : List Byte → Digest) (p : ProofOfWork)
    (hex : ∀ m : Int, 0 ≤ m → m < MaxInt64 → ¬ p.admits H m) :
    (p.Run H).1 = MaxInt64 ∧
    ¬ setBytes (p.Run H).2 < p.target ∧
    ∀ (now : Int) (data prev : List Byte), p = NewProofOfWork (pendingBlock now data prev) →
      (NewBlock H now data prev).Nonce = MaxInt64 ∧
      ¬ setBytes (NewBlock H now data prev).Hash < 2 ^ (256 - 32) ∧
      ∀ (c : BlockChain) (hne : c.Blocks ≠ []), (c.Blocks.getLast hne).Hash = prev →
        c.AddBlock H now data =
          (Outcome.returns (), { Blocks := c.Blocks ++ [NewBlock H now data prev] }) := by
  have hpos : (0 : Int) < MaxInt64 := by unfold MaxInt64; norm_num
  have hlast : ¬ setBytes (H (p.prepareData (MaxInt64 - 1))).bytes < p.target :=
    hex (MaxInt64 - 1) (by omega) (by omega)
  refine ⟨?_, ?_, ?_⟩
  · rw [Run_exhausted H p hex]
  · rw [Run_exhausted H p hex]
    exact hlast
  · intro now data prev hp
    subst hp
    obtain ⟨hN, hH⟩ := NewBlock_exhausted H now data prev hex
    refine ⟨hN, ?_, ?_⟩
    · rw [hH]
      rw [NewProofOfWork_target] at hlast
      exact hlast
    · intro c hne hprev
      rw [AddBlock_of_ne_nil H now c data hne, hprev]

/-- C8, amended, at a concrete input: the `ProofOfWork` value with target 0 and
the hash function `demoHash`. -/
theorem exhaustion_returns_normally_witness :
    (∀ m : Int, 0 ≤ m → m < MaxInt64 → ¬ zeroTargetWork.admits demoHash m) ∧
    (zeroTargetWork.Run demoHash).1 = MaxInt64 :=
  ⟨fun m _ _ => zeroTargetWork_never_admits demoHash m,
   (exhaustion_returns_normally demoHash zeroTargetWork
      (fun m _ _ => zeroTargetWork_never_admits demoHash m)).1⟩

/-- C10 as stated fails: on the empty chain `AddBlock` does not return to its
caller, neither with nor without a failure value; the index expression
`b.Blocks[len(b.Blocks)-1]` panics with index `-1` out of range. -/
theorem AddBlock_empty_does_not_return :
    BlockChain.AddBlock demoHash 1700000000 { Blocks := [] } [7] =
      (Outcome.panics (GoPanic.indexOutOfRange (-1) 0), { Blocks := [] }) ∧
    ¬ ∃ v : Unit,
      (BlockChain.AddBlock demoHash 1700000000 { Blocks := [] } [7]).1 = Outcome.returns v := by
  refine ⟨rfl, ?_⟩
  rintro ⟨v, hv⟩
  rw [AddBlock_nil] at hv
  cases hv

/-- C10, amended: `AddBlock` has no check of its own for the empty chain. It
panics (index `-1` out of range, raised by the index expression before anything
is changed) exactly when `Blocks` is empty, and then the chain is unchanged; it
returns normally exactly when the chain has at least one block. -/
theorem AddBlock_panics_iff_empty (H : List Byte → Digest) (now : Int) (c : BlockChain)
    (data : List Byte) :
    ((c.AddBlock H now data).1 = Outcome.panics (GoPanic.indexOutOfRange (-1) 0) ↔
      c.Blocks = []) ∧
    ((∃ p : GoPanic, (c.AddBlock H now data).1 = Outcome.panics p) ↔ c.Blocks = []) ∧
    ((c.AddBlock H now data).1 = Outcome.returns () ↔ c.Blocks ≠ []) ∧
    ((c.AddBlock H now data).1 ≠ Outcome.returns () → (c.AddBlock H now data).2 = c) := by
  by_cases hne : c.Blocks = []
  · have hc : c = { Blocks := [] } := by
      cases c
      simp only at hne
      rw [hne]
    subst hc
    rw [AddBlock_nil]
    refine ⟨⟨fun _ => rfl, fun _ => rfl⟩, ⟨fun _ => rfl, fun _ => ⟨_, rfl⟩⟩, ?_, fun _ => rfl⟩
    constructor
    · intro h; cases h
    · intro h; exact absurd rfl h
  · rw [AddBlock_of_ne_nil H now c data hne]
    refine ⟨?_, ?_, ?_, ?_⟩
    · constructor
      · intro h; cases h
      · intro h; exact absurd h hne
    · constructor
      · rintro ⟨p, h⟩; cases h
      · intro h; exact absurd h hne
    · exact ⟨fun _ => hne, fun _ => rfl⟩
    · intro h; exact absurd rfl h

/-- C11: every chain reachable from `NewBlockChain` by `AddBlock` calls has at
least one block, so the index `len(Blocks)-1` of `AddBlock` is in range (the
index expression returns the last block and `AddBlock` does not panic), and
`Blocks[0]` is a genesis block built by `NewBlockChain`, which `AddBlock` leaves
in place. -/
theorem reachable_chain_nonempty (H : List Byte → Digest) (c : BlockChain)
    (hc : Reachable H c) :
    1 ≤ c.Blocks.length ∧
    (∃ last : Block,
      sliceIndex c.Blocks ((c.Blocks.length : Int) - 1) = Outcome.returns last) ∧
    (∀ (now : Int) (data : List Byte), (c.AddBlock H now data).1 = Outcome.returns ()) ∧
    (∃ now0 : Int, c.Blocks[0]? = some (NewGenesisBlock H now0) ∧
      (NewBlockChain H now0).Blocks = [NewGenesisBlock H now0]) ∧
    ∀ (now : Int) (data : List Byte), (c.AddBlock H now data).2.Blocks[0]? = c.Blocks[0]? := by
  have hne := hc.ne_nil
  have hpos : 0 < c.Blocks.length := List.length_pos.mpr hne
  obtain ⟨now0, h0⟩ := hc.head_genesis
  refine ⟨hpos, ⟨_, sliceIndex_last c.Blocks hne⟩, ?_, ⟨now0, h0, rfl⟩, ?_⟩
  · intro now data
    rw [AddBlock_of_ne_nil H now c data hne]
  · intro now data
    rw [AddBlock_of_ne_nil H now c data hne]
    show (c.Blocks ++ [_])[0]? = _
    rw [List.getElem?_append_left hpos]

/-- C11, at a concrete input: the chain built with `demoHash` by `NewBlockChain`
and one `AddBlock` has at least one block. -/
theorem reachable_chain_nonempty_witness :
    Reachable demoHash
      (BlockChain.AddBlock demoHash 1700000007 (NewBlockChain demoHash 1700000000) [7]).2 ∧
    1 ≤ (BlockChain.AddBlock demoHash 1700000007
      (NewBlockChain demoHash 1700000000) [7]).2.Blocks.length :=
  ⟨Reachable.addBlock _ _ _ (Reachable.genesis _),
   (reachable_chain_nonempty demoHash _
      (Reachable.addBlock _ _ _ (Reachable.genesis _))).1⟩

/-- C12: two blocks that agree on `PreBlockHash`, `Data` and `Timestamp` get the
same `(nonce, hash)` pair from `Run`, whatever their `Nonce` and `Hash` fields
hold. -/
theorem Run_deterministic (H : List Byte → Digest) (b1 b2 : Block)
    (hpre : b1.PreBlockHash = b2.PreBlockHash) (hdata : b1.Data = b2.Data)
    (htime : b1.Timestamp = b2.Timestamp) :
    (NewProofOfWork b1).Run H = (NewProofOfWork b2).Run H := by
  refine Run_congr H (NewProofOfWork b1) (NewProofOfWork b2) rfl ?_
  intro n
  unfold ProofOfWork.prepareData
  show bytesJoin [b1.PreBlockHash, b1.Data, IntToHex b1.Timestamp, _, _] [] =
    bytesJoin [b2.PreBlockHash, b2.Data, IntToHex b2.Timestamp, _, _] []
  rw [hpre, hdata, htime]

/-- C12, at a concrete input: `demoBlock` and a block with the same three fields
but another `Hash` and `Nonce`. -/
theorem Run_deterministic_witness :
    (NewProofOfWork demoBlock).Run demoHash =
      (NewProofOfWork
        { Timestamp := 1700000000, PreBlockHash := [], Hash := [9, 9], Data := [1, 2],
          Nonce := 41 }).Run demoHash :=
  Run_deterministic demoHash demoBlock
    { Timestamp := 1700000000, PreBlockHash := [], Hash := [9, 9], Data := [1, 2], Nonce := 41 }
    rfl rfl rfl

/-- C13: for every signed 64-bit integer `i`, `IntToHex i` takes no error branch
and returns exactly 8 bytes whose big-endian unsigned value is `i` modulo `2^64`;
`IntToHex` is injective on the signed 64-bit integers. -/
theorem IntToHex_encodes (i : Int) (hi : IsInt64 i) :
    IntToHexOutcome i = Outcome.returns (IntToHex i) ∧
    (IntToHex i).length = 8 ∧
    ((setBytes (IntToHex i) : Nat) : Int) = i % 2 ^ 64 ∧
    ∀ j : Int, IsInt64 j → IntToHex i = IntToHex j → i = j := by
  refine ⟨?_, IntToHex_length i, ?_, fun j hj h => IntToHex_injective i j hi hj h⟩
  · simp [IntToHexOutcome, binaryWrite, IntToHex]
  · rw [setBytes_IntToHex]; norm_num

/-- C13, at a concrete input: `-1` is encoded as eight bytes `0xff`. -/
theorem IntToHex_encodes_witness :
    IsInt64 (-1) ∧ IntToHex (-1) = [255, 255, 255, 255, 255, 255, 255, 255] ∧
    IntToHexOutcome (-1) = Outcome.returns (IntToHex (-1)) :=
  ⟨by decide, by decide, (IntToHex_encodes (-1) (by decide)).1⟩

/-- C14: for every list of `AddBlock` calls after `NewBlockChain`, all calls
return, the chain has one block more than there were calls, and the `Data`
fields are, in index order, `"hello block chain"` and then the payloads in call
order; for the two payloads of `main` the length is 3. -/
theorem chain_data_in_call_order (H : List Byte → Digest) (now0 : Int)
    (calls : List (Int × List Byte)) :
    (addBlocks H (NewBlockChain H now0) calls).1 = Outcome.returns () ∧
    (addBlocks H (NewBlockChain H now0) calls).2.Blocks.length = calls.length + 1 ∧
    (addBlocks H (NewBlockChain H now0) calls).2.Blocks.map Block.Data =
      genesisData :: calls.map Prod.snd ∧
    (∀ t1 t2 : Int,
      (mainChain H now0 t1 t2).2.Blocks.length = 3 ∧
      (mainChain H now0 t1 t2).2.Blocks.map Block.Data =
        [genesisData, send1Data, send2Data]) ∧
    genesisData.map Fin.val = "hello block chain".toList.map Char.toNat ∧
    send1Data.map Fin.val = "Send 1 BTC to Ivan".toList.map Char.toNat ∧
    send2Data.map Fin.val = "Send 2 BTC to Ivan".toList.map Char.toNat := by
  have hne : (NewBlockChain H now0).Blocks ≠ [] := List.cons_ne_nil _ _
  have key : ∀ cs : List (Int × List Byte),
      (addBlocks H (NewBlockChain H now0) cs).2.Blocks.map Block.Data =
        genesisData :: cs.map Prod.snd := by
    intro cs
    rw [(addBlocks_of_ne_nil H cs _ hne).2]
    rfl
  have hlen : ∀ cs : List (Int × List Byte),
      (addBlocks H (NewBlockChain H now0) cs).2.Blocks.length = cs.length + 1 := by
    intro cs
    have h := congrArg List.length (key cs)
    simpa using h
  refine ⟨(addBlocks_of_ne_nil H calls _ hne).1, hlen calls, key calls, ?_,
    by decide, by decide, by decide⟩
  intro t1 t2
  exact ⟨hlen _, key _⟩

/-- C15: two blocks with different `(PreBlockHash, Data)` pairs, the same
`Timestamp` and the same nonce can have identical `prepareData` outputs: moving
the boundary between `PreBlockHash = [a]`, `Data = [b]` to `PreBlockHash = [a, b]`,
`Data = []` changes nothing, so `prepareData` is not injective in these fields. -/
theorem prepareData_boundary_ambiguity :
    (∀ (a b : Byte) (ts nonce : Int),
      (([a], [b]) : List Byte × List Byte) ≠ ([a, b], []) ∧
      (NewProofOfWork
        { Timestamp := ts, PreBlockHash := [a], Hash := [], Data := [b],
          Nonce := 0 }).prepareData nonce =
      (NewProofOfWork
        { Timestamp := ts, PreBlockHash := [a, b], Hash := [], Data := [],
          Nonce := 0 }).prepareData nonce) ∧
    ∃ (b1 b2 : Block) (nonce : Int),
      (b1.PreBlockHash, b1.Data) ≠ (b2.PreBlockHash, b2.Data) ∧
      b1.Timestamp = b2.Timestamp ∧
      (NewProofOfWork b1).prepareData nonce = (NewProofOfWork b2).prepareData nonce := by
  have hgen : ∀ (a b : Byte) (ts nonce : Int),
      (([a], [b]) : List Byte × List Byte) ≠ ([a, b], []) ∧
      (NewProofOfWork
        { Timestamp := ts, PreBlockHash := [a], Hash := [], Data := [b],
          Nonce := 0 }).prepareData nonce =
      (NewProofOfWork
        { Timestamp := ts, PreBlockHash := [a, b], Hash := [], Data := [],
          Nonce := 0 }).prepareData nonce := by
    intro a b ts nonce
    constructor
    · intro h
      have h2 := congrArg (fun x => x.2.length) h
      simp at h2
    · rw [prepareData_append, prepareData_append]
      rfl
  refine ⟨hgen, ?_⟩
  exact ⟨{ Timestamp := 0, PreBlockHash := [1], Hash := [], Data := [2], Nonce := 0 },
    { Timestamp := 0, PreBlockHash := [1, 2], Hash := [], Data := [], Nonce := 0 }, 0,
    (hgen 1 2 0 0).1, rfl, (hgen 1 2 0 0).2⟩

/-- C16: `Run` terminates for every block. The loop leaves by itself within
`MaxInt64` iterations (more fuel than `MaxInt64` changes nothing), it uses one
iteration per nonce tried (fuel for the returned nonce plus one gives the
result), the returned nonce lies in `[0, MaxInt64]`, and the returned hash has
32 bytes. -/
theorem Run_terminates_in_range (H : List Byte → Digest) (b : Block) :
    (∀ extra : Nat,
      (NewProofOfWork b).runLoop H (9223372036854775807 + extra) 0 zeroDigest =
        (NewProofOfWork b).runLoop H 9223372036854775807 0 zeroDigest) ∧
    (∀ fuel : Nat, ((NewProofOfWork b).Run H).1 + 1 ≤ fuel →
      (NewProofOfWork b).runLoop H fuel 0 zeroDigest =
        (NewProofOfWork b).runLoop H 9223372036854775807 0 zeroDigest) ∧
    0 ≤ ((NewProofOfWork b).Run H).1 ∧
    ((NewProofOfWork b).Run H).1 ≤ MaxInt64 ∧
    ((NewProofOfWork b).Run H).2.length = 32 := by
  obtain ⟨h1, h2, _⟩ := Run_inv H (NewProofOfWork b)
  refine ⟨?_, ?_, h1, h2, Run_snd_length H _⟩
  · intro extra
    exact runLoop_fuel H _ 9223372036854775807 extra 0 zeroDigest Run_fuel_enough
  · intro fuel hfuel
    refine runLoop_fuel_of_result H _ 9223372036854775807 0 zeroDigest Run_fuel_enough
      MaxInt64_nonneg fuel ?_
    have e : ((NewProofOfWork b).Run H).1 =
        ((NewProofOfWork b).runLoop H 9223372036854775807 0 zeroDigest).1 := rfl
    rw [e] at hfuel
    omega

/-- C17: when no nonce in `[0, MaxInt64)` yields a digest below the target,
`Run` returns normally the nonce `MaxInt64` and the digest of
`prepareData (MaxInt64 - 1)`, the last nonce tried. -/
theorem Run_exhausted_returns_last_digest (H : List Byte → Digest) (b : Block)
    (hex : ∀ m : Int, 0 ≤ m → m < MaxInt64 →
      ¬ setBytes (H ((NewProofOfWork b).prepareData m)).bytes < (NewProofOfWork b).target) :
    (NewProofOfWork b).Run H =
      (MaxInt64, (H ((NewProofOfWork b).prepareData (MaxInt64 - 1))).bytes) :=
  Run_exhausted H (NewProofOfWork b) hex

/-- C17, at a concrete input: with `stuckHash` the search on `demoBlock` returns
`MaxInt64` with the digest of `MaxInt64 - 1` (last byte `0xfe`), which is not the
digest of `MaxInt64` (last byte `0xff`). -/
theorem Run_exhausted_returns_last_digest_witness :
    (∀ m : Int, 0 ≤ m → m < MaxInt64 →
      ¬ setBytes (stuckHash ((NewProofOfWork demoBlock).prepareData m)).bytes <
        (NewProofOfWork demoBlock).target) ∧
    (NewProofOfWork demoBlock).Run stuckHash =
      (MaxInt64, (stuckHash ((NewProofOfWork demoBlock).prepareData (MaxInt64 - 1))).bytes) ∧
    (stuckHash ((NewProofOfWork demoBlock).prepareData (MaxInt64 - 1))).bytes =
      List.replicate 31 255 ++ [254] ∧
    (stuckHash ((NewProofOfWork demoBlock).prepareData MaxInt64)).bytes =
      List.replicate 31 255 ++ [255] :=
  ⟨fun m _ _ => stuckHash_never_admits demoBlock m,
   Run_exhausted_returns_last_digest stuckHash demoBlock
     (fun m _ _ => stuckHash_never_admits demoBlock m),
   by decide, by decide⟩

/-- C18: for every 32-byte digest, the comparison of its big-endian unsigned
value with the target of `NewProofOfWork` gives `-1` if and only if its first
four bytes are all zero. -/
theorem admission_iff_leading_zero_bytes (b : Block) (d : Digest) :
    bigCmp (setBytes d.bytes) (NewProofOfWork b).target = -1 ↔
      d.bytes.take 4 = [0, 0, 0, 0] := by
  have hlen := d.len
  have hdrop : (d.bytes.drop 4).length = 28 := by rw [List.length_drop]; omega
  have htake : (d.bytes.take 4).length = 4 := by rw [List.length_take]; omega
  have hv : setBytes d.bytes =
      setBytes (d.bytes.take 4) * 256 ^ 28 + setBytes (d.bytes.drop 4) := by
    calc setBytes d.bytes = setBytes (d.bytes.take 4 ++ d.bytes.drop 4) := by
          rw [List.take_append_drop]
      _ = setBytes (d.bytes.take 4) * 256 ^ 28 + setBytes (d.bytes.drop 4) := by
          rw [setBytes_append, hdrop]
  have hlow : setBytes (d.bytes.drop 4) < 256 ^ 28 := by
    have h := setBytes_lt (d.bytes.drop 4)
    rwa [hdrop] at h
  rw [bigCmp_eq_neg_one, NewProofOfWork_target, hv]
  norm_num at hlow ⊢
  constructor
  · intro h
    have hz : setBytes (d.bytes.take 4) = 0 := by omega
    have hall := (setBytes_eq_zero_iff _).mp hz
    have hrep : d.bytes.take 4 = List.replicate 4 0 :=
      List.eq_replicate_iff.mpr ⟨htake, hall⟩
    rw [hrep]
    rfl
  · intro h
    have hz : setBytes (d.bytes.take 4) = 0 := by rw [h]; rfl
    rw [hz]
    omega

/-- C19: for two blocks whose `PreBlockHash` fields have the same length (and
whose timestamps are `int64` values) and two nonces in the `int64` range, equal
`prepareData` outputs force equal `PreBlockHash`, equal `Data`, equal
`Timestamp` and equal nonces. -/
theorem prepareData_injective_of_prefix_length (b1 b2 : Block) (n1 n2 : Int)
    (hlen : b1.PreBlockHash.length = b2.PreBlockHash.length)
    (ht1 : IsInt64 b1.Timestamp) (ht2 : IsInt64 b2.Timestamp)
    (hn1 : IsInt64 n1) (hn2 : IsInt64 n2)
    (h : (NewProofOfWork b1).prepareData n1 = (NewProofOfWork b2).prepareData n2) :
    b1.PreBlockHash = b2.PreBlockHash ∧ b1.Data = b2.Data ∧
    b1.Timestamp = b2.Timestamp ∧ n1 = n2 := by
  rw [prepareData_append, prepareData_append] at h
  obtain ⟨hpre, h⟩ := List.append_inj h hlen
  obtain ⟨hdata, h⟩ := List.append_inj' h (by simp [IntToHex_length])
  obtain ⟨htime, h⟩ := List.append_inj h (by simp [IntToHex_length])
  obtain ⟨_, hnonce⟩ := List.append_inj h rfl
  exact ⟨hpre, hdata, IntToHex_injective _ _ ht1 ht2 htime,
    IntToHex_injective _ _ hn1 hn2 hnonce⟩

/-- C19, at a concrete input: `demoBlock` with nonce 3 against itself. -/
theorem prepareData_injective_of_prefix_length_witness :
    IsInt64 demoBlock.Timestamp ∧ IsInt64 3 ∧
    (demoBlock.PreBlockHash = demoBlock.PreBlockHash ∧ demoBlock.Data = demoBlock.Data ∧
      demoBlock.Timestamp = demoBlock.Timestamp ∧ (3 : Int) = 3) :=
  ⟨by decide, by decide,
   prepareData_injective_of_prefix_length demoBlock demoBlock 3 3 rfl
     (by decide) (by decide) (by decide) (by decide) rfl⟩

/-- C20: `setHash` sets `Hash` to the digest of `PreBlockHash`, then `Data`, then
the decimal ASCII rendering of `Timestamp`; the nonce and the old hash do not
enter it, and `Timestamp`, `PreBlockHash`, `Data` and `Nonce` are unchanged. The
hash `NewBlock` stores is not the one `setHash` computes. -/
theorem setHash_effect (H : List Byte → Digest) (b : Block) :
    (b.setHash H).Hash =
      (H (b.PreBlockHash ++ b.Data ++ formatInt10 b.Timestamp)).bytes ∧
    (b.setHash H).Timestamp = b.Timestamp ∧
    (b.setHash H).PreBlockHash = b.PreBlockHash ∧
    (b.setHash H).Data = b.Data ∧
    (b.setHash H).Nonce = b.Nonce ∧
    (∀ (n : Int) (h : List Byte),
      (Block.setHash H { b with Nonce := n, Hash := h }).Hash = (b.setHash H).Hash) ∧
    (formatInt10 1700000000).map Fin.val = "1700000000".toList.map Char.toNat ∧
    (formatInt10 0).map Fin.val = "0".toList.map Char.toNat ∧
    (formatInt10 (-42)).map Fin.val = "-42".toList.map Char.toNat ∧
    (NewBlock demoHash 1700000000 [1, 2] []).Hash ≠
      (Block.setHash demoHash (NewBlock demoHash 1700000000 [1, 2] [])).Hash := by
  have hhash : ∀ x : Block, (x.setHash H).Hash =
      (H (x.PreBlockHash ++ x.Data ++ formatInt10 x.Timestamp)).bytes := by
    intro x
    unfold Block.setHash
    simp only [bytesJoin_three]
  refine ⟨hhash b, rfl, rfl, rfl, rfl, ?_, by decide, by decide, by decide, by decide⟩
  intro n h
  rw [hhash, hhash]

end Blockchain
